import Mathlib

/-!
Verification development for the `mc admin heal` controller and the
command-suggestion helper of the MinIO client repository.

The Go sources embedded here are `cmd/admin-heal.go` (argument checking,
scan-mode mapping, scope splitting, the start / force-stop / background-status
dispatch and the poll-failure reporting of `mainAdminHeal`) and
`cmd/main.go` (`findClosestCommands`).

Strings are modelled as lists of characters. External collaborators
(admin client network calls, the poll loop `DisplayAndFollowHealStatus`)
are modelled as oracle inputs carried by a `World` record; the embedding
returns the ordered trace of control calls the command issues together
with its terminal outcome (help exit, fatal exit, or a normal return
carrying the value the Go function returns).
-/

namespace MC

/-- Strings are modelled as lists of characters. -/
abbrev Str := List Char

/-- Embedding of `strings.ToLower` as used on the ASCII scan flag. -/
def toLowerStr (s : Str) : Str := s.map Char.toLower

/-- The constant `scanNormalMode = "normal"` from `cmd/admin-heal.go`. -/
def scanNormalMode : Str := "normal".toList

/-- The constant `scanDeepMode = "deep"` from `cmd/admin-heal.go`. -/
def scanDeepMode : Str := "deep".toList

/-- The literal status string `"success"` used by the printed messages. -/
def successStr : Str := "success".toList

/-- Fatal message of the admin-client construction failure path. -/
def cannotInitMsg : Str := "Cannot initialize admin client.".toList

/-- Fatal message of the background-status failure path. -/
def bgFailMsg : Str := "Failed to get the status of the background heal.".toList

/-- Fatal message of the force-stop failure path. -/
def stopFailMsg : Str := "Failed to stop heal sequence.".toList

/-- Fatal message of the start failure path. -/
def startFailMsg : Str := "Failed to start heal sequence.".toList

/-- Fatal message of the poll-loop failure path. -/
def displayFailMsg : Str := "Unable to display heal status.".toList

/-- Embedding of `madmin.HealScanMode`: the two scan intensities. -/
inductive HealScanMode where
  | normal
  | deep
deriving DecidableEq

/-- Embedding of `transformScanArg` from `cmd/admin-heal.go`: the raw flag
value `"deep"` selects the deep scan, every other value the normal scan. -/
def transformScanArg (scanArg : Str) : HealScanMode :=
  if scanArg = scanDeepMode then HealScanMode.deep else HealScanMode.normal

/-- Embedding of `madmin.HealOpts` as populated by `mainAdminHeal`. -/
structure HealOpts where
  scanMode : HealScanMode
  remove : Bool
  recursive : Bool
  dryRun : Bool
deriving DecidableEq

/-- Embedding of `checkAdminHealSyntax` from `cmd/admin-heal.go` as a
predicate: `true` when the invocation passes the check, `false` when the
function would call `cli.ShowCommandHelpAndExit(ctx, "heal", 1)`.
The argument count must be exactly one, and the scan flag, lowered with
`strings.ToLower`, must be one of the two scan-mode constants. -/
def checkAdminHealSyntaxOk (args : List Str) (scan : Str) : Bool :=
  if args.length ≠ 1 then false
  else
    let scanArg := toLowerStr scan
    if scanArg ≠ scanNormalMode ∧ scanArg ≠ scanDeepMode then false
    else true

/-- Splits off the part of a string before the first slash, returning the
remainder after that slash when one exists. -/
def breakSlash : Str → Str × Option Str
  | [] => ([], none)
  | c :: rest =>
    if c = '/' then ([], some rest)
    else
      let p := breakSlash rest
      (c :: p.1, p.2)

/-- Modelled from the spec: the Scope Resolver (`splitStr(aliasedURL, "/", 3)`
in `mainAdminHeal`) is not among the provided sources. Following the spec,
the target locator of the form `alias[/bucket[/prefix]]` is split at its
first two slash separators; fields that are absent default to the empty
string. The result is the `(bucket, prefix)` pair, that is, the second and
third field of the split. -/
def parseScope (s : Str) : Str × Str :=
  ((breakSlash s).2).elim ([], [])
    (fun r1 => ((breakSlash r1).1, ((breakSlash r1).2).getD []))

/-- Holds when the string contains two consecutive slash characters. -/
def hasDoubleSlash : Str → Bool
  | c :: d :: rest => (c == '/' && d == '/') || hasDoubleSlash (d :: rest)
  | _ => false

/-- Embedding of `filepath.ToSlash`: on a platform whose path separator is
already the slash (the build considered here) it is the identity; the
named step is kept to mirror the source. -/
def toSlash (s : Str) : Str := s

/-- Embedding of `stopHealMessage` from `cmd/admin-heal.go`: the record
rendered when a force-stop succeeds, with JSON field names `status` and
`alias`. -/
structure stopHealMessage where
  Status : Str
  Alias : Str
deriving DecidableEq

/-- JSON escaping of the characters that the two-field record can force
into a quoted string: the quote and the backslash. -/
def escJSONStr : Str → Str
  | [] => []
  | c :: cs =>
    if c = '"' ∨ c = '\\' then '\\' :: c :: escJSONStr cs
    else c :: escJSONStr cs

/-- A JSON quoted string: opening quote, escaped body, closing quote. -/
def quoteJSON (s : Str) : Str := '"' :: (escJSONStr s ++ ['"'])

/-- Modelled from the spec: the machine-readable rendering
`json.MarshalIndent(stopHealMessage, "", " ")` (the `colorjson` package is
not among the provided sources). It renders the two-field record with the
field names of the struct tags, one-space indentation and a newline between
fields, as `encoding/json` does. -/
def stopHealMessageJSON (m : stopHealMessage) : Str :=
  "\x7b\n \"status\": ".toList ++ quoteJSON m.Status
    ++ ",\n \"alias\": ".toList ++ quoteJSON m.Alias
    ++ "\n\x7d".toList

/-- Reads the body of a JSON quoted string after its opening quote,
tracking with the flag whether the previous character was an unconsumed
backslash: returns the unescaped content and the remainder after the
closing quote. -/
def parseQuotedBodyAux : Bool → Str → Option (Str × Str)
  | _, [] => none
  | true, c :: rest =>
    match parseQuotedBodyAux false rest with
    | none => none
    | some p => some (c :: p.1, p.2)
  | false, c :: rest =>
    if c = '\\' then parseQuotedBodyAux true rest
    else if c = '"' then some ([], rest)
    else
      match parseQuotedBodyAux false rest with
      | none => none
      | some p => some (c :: p.1, p.2)

/-- Reads a JSON quoted string, opening quote included. -/
def parseQuoted : Str → Option (Str × Str)
  | [] => none
  | c :: rest => if c = '"' then parseQuotedBodyAux false rest else none

/-- Drops an expected literal from the front of the input, or fails. -/
def dropLiteral : Str → Str → Option Str
  | [], s => some s
  | _ :: _, [] => none
  | l :: ls, c :: cs => if c = l then dropLiteral ls cs else none

/-- Modelled from the spec: the parser of the machine-readable summary of a
`Stopped` outcome, inverse in shape to `stopHealMessageJSON`. -/
def parseStopJSON (s : Str) : Option stopHealMessage :=
  (dropLiteral "\x7b\n \"status\": ".toList s).bind fun s1 =>
    (parseQuoted s1).bind fun p =>
      (dropLiteral ",\n \"alias\": ".toList p.2).bind fun s3 =>
        (parseQuoted s3).bind fun q =>
          (dropLiteral "\n\x7d".toList q.2).bind fun s5 =>
            if s5 = [] then some ⟨p.1, q.1⟩ else none

/-- Embedding of `madmin.BgHealState` as far as the command reads it:
the scanned-items count and the last-activity instant (an abstract tick). -/
structure BgHealState where
  ScannedItemsCount : Nat
  LastHealActivity : Nat
deriving DecidableEq

/-- Embedding of the successful start value of `client.Heal`: the command
only reads its client token. -/
structure HealStartSuccess where
  ClientToken : Str
deriving DecidableEq

/-- Modelled from the spec: the result record of the poll loop
`DisplayAndFollowHealStatus` (its type is not among the provided sources);
`mainAdminHeal` reads only its server-supplied failure detail, the rest of
the partial aggregate is abstracted into one opaque payload field. -/
structure HealResult where
  FailureDetail : Str
  Payload : Nat
deriving DecidableEq

/-- Modelled from the spec: the serialization `json.MarshalIndent(res, "", " ")`
of the partial poll result attached to the fatal report (the result type and
the `colorjson` package are not among the provided sources); rendered like
the other machine-readable records. -/
def jsonHealResult (r : HealResult) : Str :=
  "\x7b\n \"detail\": ".toList ++ quoteJSON r.FailureDetail
    ++ ",\n \"payload\": ".toList ++ (toString r.Payload).toList
    ++ "\n\x7d".toList

/-- The flag and argument environment of one invocation, as read from the
`cli.Context` by `mainAdminHeal`. -/
structure Ctx where
  args : List Str
  scan : Str
  recursive : Bool
  dryRun : Bool
  forceStart : Bool
  forceStop : Bool
  remove : Bool
deriving DecidableEq

/-- Oracle results of the external collaborators touched by one invocation:
the admin-client construction, the background-status query, the single
`client.Heal` control call the invocation can make, and the poll loop. -/
structure World where
  adminClientErr : Option Str
  bgStatusRes : Except Str BgHealState
  healRes : Except Str HealStartSuccess
  pollResult : HealResult
  pollErr : Option Str

/-- One entry of the trace of external control operations, in issue order. -/
inductive Call where
  | clientInit (target : Str)
  | heal (bucket pfx : Str) (opts : HealOpts) (token : Str)
      (forceStart forceStop : Bool)
  | bgStatus
  | poll (target : Str)
deriving DecidableEq

/-- The message printed by a normally returning invocation. -/
inductive PrintedMsg where
  | bg (status : Str) (info : BgHealState)
  | stop (status aliased : Str)
deriving DecidableEq

/-- Terminal outcome of one invocation: a help exit with an exit code, a
fatal exit with its message and trace context, or a normal return carrying
the printed message and the error value the Go function returns. -/
inductive Outcome where
  | helpExit (code : Nat)
  | fatalExit (msg : Str) (context : List Str)
  | ret (printed : Option PrintedMsg) (err : Option Str)
deriving DecidableEq

/-- Embedding of `mainAdminHeal` from `cmd/admin-heal.go`. It returns the
ordered trace of external control operations together with the terminal
outcome. Paths mirror the source: the argument check, admin-client
construction, the slash normalization and scope split, the
background-status shortcut for an empty bucket without the recursive flag,
the force-stop call, and otherwise the start call followed by the poll
loop with its failure-detail dependent fatal report. Color registration is
a pure display side effect and is not modelled. -/
def mainAdminHeal (ctx : Ctx) (w : World) : List Call × Outcome :=
  match checkAdminHealSyntaxOk ctx.args ctx.scan with
  | false => ([], Outcome.helpExit 1)
  | true =>
    let aliasedURL0 := ctx.args.headD []
    match w.adminClientErr with
    | some _ =>
      ([Call.clientInit aliasedURL0],
       Outcome.fatalExit cannotInitMsg [aliasedURL0])
    | none =>
      let aliasedURL := toSlash aliasedURL0
      let bp := parseScope aliasedURL
      let bucket := bp.1
      let pfx := bp.2
      if bucket = [] ∧ ctx.recursive = false then
        match w.bgStatusRes with
        | Except.error _ =>
          ([Call.clientInit aliasedURL0, Call.bgStatus],
           Outcome.fatalExit bgFailMsg [])
        | Except.ok st =>
          ([Call.clientInit aliasedURL0, Call.bgStatus],
           Outcome.ret (some (PrintedMsg.bg successStr st)) none)
      else
        let opts : HealOpts :=
          { scanMode := transformScanArg ctx.scan
            remove := ctx.remove
            recursive := ctx.recursive
            dryRun := ctx.dryRun }
        if ctx.forceStop then
          match w.healRes with
          | Except.error _ =>
            ([Call.clientInit aliasedURL0,
              Call.heal bucket pfx opts [] ctx.forceStart true],
             Outcome.fatalExit stopFailMsg [])
          | Except.ok _ =>
            ([Call.clientInit aliasedURL0,
              Call.heal bucket pfx opts [] ctx.forceStart true],
             Outcome.ret (some (PrintedMsg.stop successStr aliasedURL)) none)
        else
          match w.healRes with
          | Except.error _ =>
            ([Call.clientInit aliasedURL0,
              Call.heal bucket pfx opts [] ctx.forceStart false],
             Outcome.fatalExit startFailMsg [])
          | Except.ok _ =>
            let trace :=
              [Call.clientInit aliasedURL0,
               Call.heal bucket pfx opts [] ctx.forceStart false,
               Call.poll aliasedURL]
            match w.pollErr with
            | some _ =>
              if w.pollResult.FailureDetail ≠ [] then
                (trace,
                 Outcome.fatalExit displayFailMsg
                   [aliasedURL, jsonHealResult w.pollResult])
              else
                (trace, Outcome.fatalExit displayFailMsg [aliasedURL])
            | none => (trace, Outcome.ret none none)

/-- Recognizes the `client.Heal` entries of a trace. -/
def isHealCall : Call → Bool
  | Call.heal _ _ _ _ _ _ => true
  | _ => false

/-- Recognizes the `BackgroundHealStatus` entries of a trace. -/
def isBgCall : Call → Bool
  | Call.bgStatus => true
  | _ => false

/-- Recognizes the poll-loop entries of a trace. -/
def isPollCall : Call → Bool
  | Call.poll _ => true
  | _ => false

/-- Lexicographic order on strings, the order `sort.Strings` uses (byte
order of the UTF-8 encoding agrees with code-point order). -/
def strLe : Str → Str → Bool
  | [], _ => true
  | _ :: _, [] => false
  | a :: as, b :: bs =>
    if a < b then true
    else if b < a then false
    else strLe as bs

/-- The ordering relation behind `strLe`, as a proposition. -/
def StrLe (a b : Str) : Prop := strLe a b = true

instance : DecidableRel StrLe := fun a b => by
  unfold StrLe; infer_instance

theorem strLe_cons_iff (x y : Char) (as bs : Str) :
    strLe (x :: as) (y :: bs) = true ↔
      x < y ∨ (x = y ∧ strLe as bs = true) := by
  by_cases hxy : x < y
  · simp [strLe, hxy]
  · by_cases hyx : y < x
    · constructor
      · intro h; simp [strLe, hxy, hyx] at h
      · rintro (h | ⟨h, _⟩)
        · exact absurd h hxy
        · subst h; exact absurd hyx (lt_irrefl x)
    · have hxy' : x = y := le_antisymm (not_lt.mp hyx) (not_lt.mp hxy)
      simp [strLe, hxy, hyx, hxy']

theorem strLe_total (a b : Str) : strLe a b = true ∨ strLe b a = true := by
  induction a generalizing b with
  | nil => left; rfl
  | cons x as ih =>
    cases b with
    | nil => right; rfl
    | cons y bs =>
      rcases lt_trichotomy x y with h | h | h
      · left; exact (strLe_cons_iff x y as bs).mpr (Or.inl h)
      · rcases ih bs with h' | h'
        · left; exact (strLe_cons_iff x y as bs).mpr (Or.inr ⟨h, h'⟩)
        · right; exact (strLe_cons_iff y x bs as).mpr (Or.inr ⟨h.symm, h'⟩)
      · right; exact (strLe_cons_iff y x bs as).mpr (Or.inl h)

theorem strLe_trans (a b c : Str)
    (hab : strLe a b = true) (hbc : strLe b c = true) :
    strLe a c = true := by
  induction a generalizing b c with
  | nil => rfl
  | cons x as ih =>
    cases b with
    | nil => exact absurd hab (by simp [strLe])
    | cons y bs =>
      cases c with
      | nil => exact absurd hbc (by simp [strLe])
      | cons z cs =>
        rcases (strLe_cons_iff x y as bs).mp hab with h1 | ⟨h1, h1'⟩ <;>
          rcases (strLe_cons_iff y z bs cs).mp hbc with h2 | ⟨h2, h2'⟩
        · exact (strLe_cons_iff x z as cs).mpr (Or.inl (h1.trans h2))
        · exact (strLe_cons_iff x z as cs).mpr (Or.inl (h2 ▸ h1))
        · exact (strLe_cons_iff x z as cs).mpr (Or.inl (h1 ▸ h2))
        · exact (strLe_cons_iff x z as cs).mpr
            (Or.inr ⟨h1.trans h2, ih bs cs h1' h2'⟩)

instance : IsTotal Str StrLe := ⟨strLe_total⟩

instance : IsTrans Str StrLe := ⟨strLe_trans⟩

/-- Embedding of `sort.Strings`: an ascending sort of a string slice. -/
def sortStrings (l : List Str) : List Str := List.insertionSort StrLe l

/-- Modelled from the spec: `words.DamerauLevenshteinDistance` from the
vendored `minio/pkg/words` package is not among the provided sources; this
is the standard restricted Damerau-Levenshtein (optimal string alignment)
edit distance, counting insertions, deletions, substitutions and adjacent
transpositions with unit cost. -/
def dlDistAux : Nat → Str → Str → Nat
  | _, [], ys => ys.length
  | _, x :: xs, [] => (x :: xs).length
  | 0, _ :: _, _ :: _ => 0
  | fuel + 1, x :: xs, y :: ys =>
    let noSwap :=
      if x = y then dlDistAux fuel xs ys
      else
        1 + min (dlDistAux fuel xs (y :: ys))
            (min (dlDistAux fuel (x :: xs) ys) (dlDistAux fuel xs ys))
    match xs, ys with
    | x2 :: xs2, y2 :: ys2 =>
      if x = y2 ∧ y = x2 then min noSwap (1 + dlDistAux fuel xs2 ys2)
      else noSwap
    | _, _ => noSwap

/-- The distance proper, run with enough fuel: every recursive step of
`dlDistAux` lowers the summed length of the two strings by at least one
and the base cases need no fuel, so the fuel never runs out. -/
def dlDist (a b : Str) : Nat := dlDistAux (a.length + b.length) a b

/-- Embedding of the loop of Go `sort.Search` specialized by
`sort.SearchStrings`: binary bisection of the interval with the predicate
that the probed element is at least the key. -/
def goSearch (a : List Str) (x : Str) : Nat → Nat → Nat → Nat
  | 0, i, _ => i
  | fuel + 1, i, j =>
    if i < j then
      let m := (i + j) / 2
      if strLe x (a.getD m []) then goSearch a x fuel i m
      else goSearch a x fuel (m + 1) j
    else i

/-- Embedding of `sort.SearchStrings(a, x)`: the bisection run over the
whole slice. The interval shrinks strictly at every step, so fuel equal to
the slice length plus one is never exhausted. -/
def searchStrings (a : List Str) (x : Str) : Nat :=
  goSearch a x (a.length + 1) 0 a.length

/-- The second loop of `findClosestCommands` over the walked command names:
a candidate is skipped when the bisection finds a position strictly inside
the accumulated slice, appended when its edit distance to the queried
string is below 2, and dropped otherwise. The accumulated slice evolves
during the walk, exactly as in the source. -/
def fccLoop (command : Str) : List Str → List Str → List Str
  | acc, [] => acc
  | acc, v :: rest =>
    if searchStrings acc v < acc.length then fccLoop command acc rest
    else if dlDist command v < 2 then fccLoop command (acc ++ [v]) rest
    else fccLoop command acc rest

/-- Embedding of `findClosestCommands` from `cmd/main.go`. Modelled from the
spec for the commands trie, which is not among the provided sources: the
registered command set is a list of names, `PrefixMatch` returns the
registered names having the queried string as a prefix, and `Walk`
enumerates every registered name. The prefix matches are sorted with
`sort.Strings` and the walk loop then appends near misses. -/
def findClosestCommands (registered : List Str) (command : Str) : List Str :=
  let closest := sortStrings (registered.filter (fun v => command.isPrefixOf v))
  fccLoop command closest registered

/-- A sample flag environment: one whole-cluster target, every flag at its
default. -/
def exCtx : Ctx :=
  { args := ["myminio".toList]
    scan := "normal".toList
    recursive := false
    dryRun := false
    forceStart := false
    forceStop := false
    remove := false }

/-- A sample background-status snapshot. -/
def exBg : BgHealState := ⟨7, 3⟩

/-- A sample oracle in which every external operation succeeds. -/
def exWorld : World :=
  { adminClientErr := none
    bgStatusRes := Except.ok exBg
    healRes := Except.ok ⟨"tok".toList⟩
    pollResult := ⟨[], 0⟩
    pollErr := none }

/-- A sample registered command set for the suggestion helper. -/
def exCommands : List Str := ["ls".toList, "cp".toList]

/-!
Theorems. Claim-level theorems carry the claim id in their doc comment;
the lemmas before them are shared supporting material.
-/

/-- Claim C4, amended form: an argument count other than one, or a scan
flag whose lowercased value is neither of the two recognized scan modes,
makes the command exit through the help path with exit code 1 before any
external operation: the trace is empty, so the admin client is never
constructed and no Heal or BackgroundHealStatus call is made. -/
theorem adminHeal_badInvocation_helpExit (ctx : Ctx) (w : World)
    (h : ctx.args.length ≠ 1 ∨
      (toLowerStr ctx.scan ≠ scanNormalMode ∧ toLowerStr ctx.scan ≠ scanDeepMode)) :
    mainAdminHeal ctx w = ([], Outcome.helpExit 1) := by
  have hsyn : checkAdminHealSyntaxOk ctx.args ctx.scan = false := by
    unfold checkAdminHealSyntaxOk
    rcases h with h | ⟨h1, h2⟩
    · simp [h]
    · by_cases hl : ctx.args.length = 1
      · simp [hl, h1, h2]
      · simp [hl]
  unfold mainAdminHeal
  rw [hsyn]

/-- Witness for claim C4: a concrete invocation with no positional
argument exits through the help path without any call. -/
theorem adminHeal_badInvocation_helpExit_witness :
    mainAdminHeal { exCtx with args := [] } exWorld = ([], Outcome.helpExit 1) :=
  adminHeal_badInvocation_helpExit { exCtx with args := [] } exWorld (by decide)

/-- Counterexample for claim C4 as stated: the scan flag value `DEEP` is
neither of the two recognized literal values, yet the command does not
abort with the help exit; it proceeds to construct the admin client and
issue a network call (the trace is nonempty). -/
theorem adminHeal_scanDEEP_not_rejected :
    ¬("DEEP".toList = scanNormalMode ∨ "DEEP".toList = scanDeepMode) ∧
    (mainAdminHeal { exCtx with scan := "DEEP".toList } exWorld).1 ≠ [] ∧
    (mainAdminHeal { exCtx with scan := "DEEP".toList } exWorld).2 ≠ Outcome.helpExit 1 := by
  decide

/-- Claim C2: with a syntactically valid invocation whose parsed bucket is
empty and whose recursive flag is false, once the admin client is
constructed the command issues exactly one BackgroundHealStatus call and
zero Heal calls, and when the status query succeeds it returns normally
after rendering the background summary. -/
theorem adminHeal_bgShortcut (ctx : Ctx) (w : World)
    (hsyn : checkAdminHealSyntaxOk ctx.args ctx.scan = true)
    (hcli : w.adminClientErr = none)
    (hb : (parseScope (toSlash (ctx.args.headD []))).1 = [])
    (hr : ctx.recursive = false) :
    (mainAdminHeal ctx w).1 = [Call.clientInit (ctx.args.headD []), Call.bgStatus] ∧
    (mainAdminHeal ctx w).1.filter isHealCall = [] ∧
    (∀ st, w.bgStatusRes = Except.ok st →
      (mainAdminHeal ctx w).2 = Outcome.ret (some (PrintedMsg.bg successStr st)) none) := by
  have hmain :
      mainAdminHeal ctx w =
        (match w.bgStatusRes with
          | Except.error _ =>
            ([Call.clientInit (ctx.args.headD []), Call.bgStatus],
             Outcome.fatalExit bgFailMsg [])
          | Except.ok st =>
            ([Call.clientInit (ctx.args.headD []), Call.bgStatus],
             Outcome.ret (some (PrintedMsg.bg successStr st)) none)) := by
    unfold mainAdminHeal
    rw [hsyn, hcli]
    simp only [hb, hr, and_self, if_true]
  rcases hbg : w.bgStatusRes with e | st
  · refine ⟨by rw [hmain, hbg], by rw [hmain, hbg]; rfl, ?_⟩
    intro st hst
    exact absurd hst (by simp)
  · refine ⟨by rw [hmain, hbg], by rw [hmain, hbg]; rfl, ?_⟩
    intro st2 hst
    have hstst : st = st2 := by injection hst
    rw [hmain, hbg, hstst]

/-- Witness for claim C2: the default sample invocation (no bucket, no
recursive flag) issues exactly the client construction and one background
status call and renders the summary. -/
theorem adminHeal_bgShortcut_witness :
    (mainAdminHeal exCtx exWorld).1 =
      [Call.clientInit ("myminio".toList), Call.bgStatus] ∧
    (mainAdminHeal exCtx exWorld).1.filter isHealCall = [] ∧
    (mainAdminHeal exCtx exWorld).2 =
      Outcome.ret (some (PrintedMsg.bg successStr exBg)) none := by
  have h := adminHeal_bgShortcut exCtx exWorld (by decide) (by decide) (by decide) (by decide)
  exact ⟨h.1, h.2.1, h.2.2 exBg rfl⟩

/-- Reduction of `mainAdminHeal` on the sequence path: valid invocation,
admin client constructed, and the background shortcut not taken. -/
theorem adminHeal_seq_eq (ctx : Ctx) (w : World)
    (hsyn : checkAdminHealSyntaxOk ctx.args ctx.scan = true)
    (hcli : w.adminClientErr = none)
    (hseq : ¬((parseScope (toSlash (ctx.args.headD []))).1 = [] ∧
      ctx.recursive = false)) :
    mainAdminHeal ctx w =
      (let a0 := ctx.args.headD []
       let bp := parseScope (toSlash a0)
       let opts : HealOpts :=
         { scanMode := transformScanArg ctx.scan
           remove := ctx.remove
           recursive := ctx.recursive
           dryRun := ctx.dryRun }
       if ctx.forceStop then
         match w.healRes with
         | Except.error _ =>
           ([Call.clientInit a0, Call.heal bp.1 bp.2 opts [] ctx.forceStart true],
            Outcome.fatalExit stopFailMsg [])
         | Except.ok _ =>
           ([Call.clientInit a0, Call.heal bp.1 bp.2 opts [] ctx.forceStart true],
            Outcome.ret (some (PrintedMsg.stop successStr (toSlash a0))) none)
       else
         match w.healRes with
         | Except.error _ =>
           ([Call.clientInit a0, Call.heal bp.1 bp.2 opts [] ctx.forceStart false],
            Outcome.fatalExit startFailMsg [])
         | Except.ok _ =>
           let trace :=
             [Call.clientInit a0, Call.heal bp.1 bp.2 opts [] ctx.forceStart false,
              Call.poll (toSlash a0)]
           match w.pollErr with
           | some _ =>
             if w.pollResult.FailureDetail ≠ [] then
               (trace,
                Outcome.fatalExit displayFailMsg
                  [toSlash a0, jsonHealResult w.pollResult])
             else (trace, Outcome.fatalExit displayFailMsg [toSlash a0])
           | none => (trace, Outcome.ret none none)) := by
  unfold mainAdminHeal
  rw [hsyn, hcli]
  simp only [if_neg hseq]

/-- Claim C1, amended form: when a force-stop invocation actually reaches
the heal-sequence path, that is, when the parsed bucket is nonempty or the
recursive flag is set, the controller issues exactly one Heal call and it
carries `forceStop = true`, the force-start flag is forwarded unchanged,
and no start call with `forceStop = false` and no poll happens: the whole
trace is the client construction followed by that single stop call. When
instead the parsed bucket is empty and the recursive flag is unset, the
force flags are ignored and the invocation reduces to the
background-status query. -/
theorem adminHeal_forceStop_single_call (ctx : Ctx) (w : World)
    (hsyn : checkAdminHealSyntaxOk ctx.args ctx.scan = true)
    (hcli : w.adminClientErr = none)
    (hseq : ¬((parseScope (toSlash (ctx.args.headD []))).1 = [] ∧
      ctx.recursive = false))
    (hstop : ctx.forceStop = true) :
    (mainAdminHeal ctx w).1 =
      [Call.clientInit (ctx.args.headD []),
       Call.heal (parseScope (toSlash (ctx.args.headD []))).1
         (parseScope (toSlash (ctx.args.headD []))).2
         { scanMode := transformScanArg ctx.scan
           remove := ctx.remove
           recursive := ctx.recursive
           dryRun := ctx.dryRun }
         [] ctx.forceStart true] := by
  rw [adminHeal_seq_eq ctx w hsyn hcli hseq]
  rw [hstop]
  cases w.healRes <;> rfl

/-- Witness for claim C1: a concrete force-stop invocation scoped to a
bucket issues only the client construction and one stop call. -/
theorem adminHeal_forceStop_single_call_witness :
    (mainAdminHeal
        { exCtx with args := ["myminio/data".toList], forceStop := true }
        exWorld).1 =
      [Call.clientInit "myminio/data".toList,
       Call.heal "data".toList []
         { scanMode := HealScanMode.normal
           remove := false
           recursive := false
           dryRun := false }
         [] false true] :=
  adminHeal_forceStop_single_call
    { exCtx with args := ["myminio/data".toList], forceStop := true }
    exWorld (by decide) (by decide) (by decide) (by decide)

/-- Counterexample for claim C1 as stated: a force-stop invocation whose
target has no bucket and whose recursive flag is unset issues zero Heal
calls (the claim demands exactly one with `forceStop = true`); the
invocation performs a background-status query instead. -/
theorem adminHeal_forceStop_zero_calls :
    ({ exCtx with forceStop := true } : Ctx).forceStop = true ∧
    ((mainAdminHeal { exCtx with forceStop := true } exWorld).1.filter
      isHealCall).length = 0 ∧
    (mainAdminHeal { exCtx with forceStop := true } exWorld).1.filter
      isBgCall = [Call.bgStatus] := by
  decide

/-- Claim C3: every invocation that starts a heal sequence issues the start
call with continuation token the empty string, `forceStop = false`, the
force-start flag forwarded unchanged, and options built from the flags:
the scan mode is deep exactly when the scan flag is the string `deep`,
otherwise normal, and the remove, recursive and dry-run options equal the
corresponding flags. -/
theorem adminHeal_start_call_shape (ctx : Ctx) (w : World)
    (hsyn : checkAdminHealSyntaxOk ctx.args ctx.scan = true)
    (hcli : w.adminClientErr = none)
    (hseq : ¬((parseScope (toSlash (ctx.args.headD []))).1 = [] ∧
      ctx.recursive = false))
    (hstop : ctx.forceStop = false) :
    (mainAdminHeal ctx w).1.filter isHealCall =
      [Call.heal (parseScope (toSlash (ctx.args.headD []))).1
        (parseScope (toSlash (ctx.args.headD []))).2
        { scanMode :=
            if ctx.scan = scanDeepMode then HealScanMode.deep
            else HealScanMode.normal
          remove := ctx.remove
          recursive := ctx.recursive
          dryRun := ctx.dryRun }
        [] ctx.forceStart false] := by
  rw [adminHeal_seq_eq ctx w hsyn hcli hseq]
  rw [hstop]
  cases w.healRes <;> cases w.pollErr <;>
    first
      | rfl
      | (simp only [Bool.false_eq_true, if_false]
         split <;> rfl)

/-- Witness for claim C3: a concrete recursive deep-scan dry-run start
issues one start call with deep scan, the recursion and dry-run flags, the
empty continuation token and `forceStop = false`. -/
theorem adminHeal_start_call_shape_witness :
    (mainAdminHeal
        { exCtx with args := ["myminio/data/pre".toList],
                     scan := "deep".toList, recursive := true, dryRun := true }
        exWorld).1.filter isHealCall =
      [Call.heal "data".toList "pre".toList
        { scanMode := HealScanMode.deep
          remove := false
          recursive := true
          dryRun := true }
        [] false false] :=
  adminHeal_start_call_shape
    { exCtx with args := ["myminio/data/pre".toList],
                 scan := "deep".toList, recursive := true, dryRun := true }
    exWorld (by decide) (by decide) (by decide) (by decide)

/-- Claim C5: when the poll loop returns an error, the invocation
terminates fatally without retrying: the trace holds exactly one poll
entry, and the fatal report attaches the serialized partial result exactly
when the server-supplied failure detail is nonempty, reporting a plain
failure with only the target locator as context otherwise. -/
theorem adminHeal_pollFailure_fatal (ctx : Ctx) (w : World)
    (hsyn : checkAdminHealSyntaxOk ctx.args ctx.scan = true)
    (hcli : w.adminClientErr = none)
    (hseq : ¬((parseScope (toSlash (ctx.args.headD []))).1 = [] ∧
      ctx.recursive = false))
    (hstop : ctx.forceStop = false)
    (t : HealStartSuccess) (hheal : w.healRes = Except.ok t)
    (e : Str) (hpoll : w.pollErr = some e) :
    (mainAdminHeal ctx w).1 =
      [Call.clientInit (ctx.args.headD []),
       Call.heal (parseScope (toSlash (ctx.args.headD []))).1
         (parseScope (toSlash (ctx.args.headD []))).2
         { scanMode := transformScanArg ctx.scan
           remove := ctx.remove
           recursive := ctx.recursive
           dryRun := ctx.dryRun }
         [] ctx.forceStart false,
       Call.poll (toSlash (ctx.args.headD []))] ∧
    (mainAdminHeal ctx w).2 =
      Outcome.fatalExit displayFailMsg
        (if w.pollResult.FailureDetail ≠ [] then
           [toSlash (ctx.args.headD []), jsonHealResult w.pollResult]
         else [toSlash (ctx.args.headD [])]) := by
  rw [adminHeal_seq_eq ctx w hsyn hcli hseq]
  rw [hstop, hheal, hpoll]
  by_cases hd : w.pollResult.FailureDetail = [] <;> simp [hd]

/-- Witness for claim C5: a concrete poll failure carrying a nonempty
failure detail terminates fatally with the serialized partial result
attached after the target locator. -/
theorem adminHeal_pollFailure_fatal_witness :
    (mainAdminHeal { exCtx with args := ["myminio/data".toList] }
        { exWorld with pollResult := ⟨"lost".toList, 5⟩,
                       pollErr := some "broken pipe".toList }).1 =
      [Call.clientInit "myminio/data".toList,
       Call.heal "data".toList []
         { scanMode := HealScanMode.normal
           remove := false
           recursive := false
           dryRun := false }
         [] false false,
       Call.poll "myminio/data".toList] ∧
    (mainAdminHeal { exCtx with args := ["myminio/data".toList] }
        { exWorld with pollResult := ⟨"lost".toList, 5⟩,
                       pollErr := some "broken pipe".toList }).2 =
      Outcome.fatalExit displayFailMsg
        ["myminio/data".toList, jsonHealResult ⟨"lost".toList, 5⟩] := by
  have h := adminHeal_pollFailure_fatal
    { exCtx with args := ["myminio/data".toList] }
    { exWorld with pollResult := ⟨"lost".toList, 5⟩,
                   pollErr := some "broken pipe".toList }
    (by decide) (by decide) (by decide) (by decide)
    ⟨"tok".toList⟩ rfl "broken pipe".toList rfl
  exact ⟨h.1, h.2.trans (by decide)⟩

/-- Dropping a literal from the front of itself followed by a tail leaves
the tail. -/
theorem dropLiteral_append (l t : Str) : dropLiteral l (l ++ t) = some t := by
  induction l with
  | nil => rfl
  | cons c ls ih => simp [dropLiteral, ih]

/-- Dropping a literal from exactly itself leaves the empty remainder. -/
theorem dropLiteral_self (l : Str) : dropLiteral l l = some [] := by
  simpa using dropLiteral_append l []

/-- Reading an escaped body followed by a closing quote recovers the
original content and the remainder. -/
theorem parseQuotedBody_esc (v rest : Str) :
    parseQuotedBodyAux false (escJSONStr v ++ '"' :: rest) = some (v, rest) := by
  induction v with
  | nil => simp [escJSONStr, parseQuotedBodyAux]
  | cons c cs ih =>
    by_cases hc : c = '"' ∨ c = '\\'
    · have hne : escJSONStr (c :: cs) = '\\' :: c :: escJSONStr cs := by
        simp [escJSONStr, hc]
      rw [hne, List.cons_append, List.cons_append]
      simp [parseQuotedBodyAux, ih]
    · push_neg at hc
      have hne : escJSONStr (c :: cs) = c :: escJSONStr cs := by
        simp [escJSONStr, hc.1, hc.2]
      rw [hne, List.cons_append]
      simp [parseQuotedBodyAux, hc.1, hc.2, ih]

/-- Reading a quoted string recovers the original content and the
remainder. -/
theorem parseQuoted_quote (v rest : Str) :
    parseQuoted (quoteJSON v ++ rest) = some (v, rest) := by
  simp [quoteJSON, parseQuoted, List.append_assoc, parseQuotedBody_esc]

/-- Round trip of the machine-readable stop summary: parsing the rendering
of any stop record reproduces the record exactly. -/
theorem stopJSON_roundtrip (m : stopHealMessage) :
    parseStopJSON (stopHealMessageJSON m) = some m := by
  simp only [stopHealMessageJSON, parseStopJSON, List.append_assoc,
    dropLiteral_append, parseQuoted_quote, dropLiteral_self,
    Option.some_bind, if_pos rfl, if_true]

/-- Claim C6: a successful force-stop invocation ends in the Stopped
outcome whose record is `status = success` with the alias equal to the
positional target locator given on the command line, and rendering the
machine-readable form of that record and parsing it back reproduces the
record exactly. -/
theorem adminHeal_stop_roundtrip (ctx : Ctx) (w : World)
    (hsyn : checkAdminHealSyntaxOk ctx.args ctx.scan = true)
    (hcli : w.adminClientErr = none)
    (hseq : ¬((parseScope (toSlash (ctx.args.headD []))).1 = [] ∧
      ctx.recursive = false))
    (hstop : ctx.forceStop = true)
    (t : HealStartSuccess) (hheal : w.healRes = Except.ok t) :
    (mainAdminHeal ctx w).2 =
      Outcome.ret
        (some (PrintedMsg.stop successStr (toSlash (ctx.args.headD [])))) none ∧
    toSlash (ctx.args.headD []) = ctx.args.headD [] ∧
    parseStopJSON
      (stopHealMessageJSON ⟨successStr, toSlash (ctx.args.headD [])⟩) =
      some ⟨successStr, toSlash (ctx.args.headD [])⟩ := by
  refine ⟨?_, rfl, stopJSON_roundtrip _⟩
  rw [adminHeal_seq_eq ctx w hsyn hcli hseq]
  rw [hstop, hheal]
  rfl

/-- Witness for claim C6: a concrete successful force-stop renders the
success record with the input locator as alias, and the machine-readable
form round-trips. -/
theorem adminHeal_stop_roundtrip_witness :
    (mainAdminHeal
        { exCtx with args := ["myminio/data".toList], forceStop := true }
        exWorld).2 =
      Outcome.ret
        (some (PrintedMsg.stop successStr "myminio/data".toList)) none ∧
    toSlash "myminio/data".toList = "myminio/data".toList ∧
    parseStopJSON
      (stopHealMessageJSON ⟨successStr, "myminio/data".toList⟩) =
      some ⟨successStr, "myminio/data".toList⟩ :=
  adminHeal_stop_roundtrip
    { exCtx with args := ["myminio/data".toList], forceStop := true }
    exWorld (by decide) (by decide) (by decide) (by decide)
    ⟨"tok".toList⟩ rfl

/-- A string splits around its first slash when `breakSlash` reports one. -/
theorem breakSlash_some (s a r : Str) (h : breakSlash s = (a, some r)) :
    s = a ++ '/' :: r := by
  induction s generalizing a with
  | nil => exact absurd h (by simp [breakSlash])
  | cons c rest ih =>
    by_cases hc : c = '/'
    · rw [breakSlash, if_pos hc] at h
      injection h with ha hr
      injection hr with hr
      subst ha; subst hr; subst hc
      rfl
    · rw [breakSlash, if_neg hc] at h
      injection h with ha hr
      rcases hbr : breakSlash rest with ⟨a2, o2⟩
      rw [hbr] at ha hr
      cases o2 with
      | none => exact absurd hr (by simp)
      | some r2 =>
        have hr2 : r2 = r := by injection hr
        subst hr2
        have := ih a2 hbr
        rw [← ha, this]
        rfl

/-- Any string of the form left, slash, slash, right has a double slash. -/
theorem hasDoubleSlash_append (a t : Str) :
    hasDoubleSlash (a ++ '/' :: '/' :: t) = true := by
  induction a with
  | nil => simp [hasDoubleSlash]
  | cons c as ih =>
    cases as with
    | nil => simp [hasDoubleSlash]
    | cons d as2 =>
      simp only [List.cons_append] at ih ⊢
      rw [hasDoubleSlash]
      simp [ih]

/-- Claim C7, amended form: for every input target locator that does not
contain two consecutive slash characters, the (bucket, prefix) pair
computed from it satisfies the scope invariant: an empty bucket forces an
empty prefix. -/
theorem parseScope_empty_bucket_empty_pfx (s : Str)
    (hnds : hasDoubleSlash s = false)
    (hb : (parseScope s).1 = []) : (parseScope s).2 = [] := by
  rcases h1 : breakSlash s with ⟨a, o⟩
  have h1' : (breakSlash s).2 = o := by rw [h1]
  cases o with
  | none => simp [parseScope, h1']
  | some r1 =>
    rcases h2 : breakSlash r1 with ⟨b, o2⟩
    cases o2 with
    | none => simp [parseScope, h1', h2]
    | some r2 =>
      exfalso
      have hb' : b = [] := by
        simp only [parseScope, h1', Option.elim_some, h2] at hb
        exact hb
      subst hb'
      have e1 := breakSlash_some r1 [] r2 h2
      have e2 := breakSlash_some s a r1 h1
      rw [e1] at e2
      simp only [List.nil_append] at e2
      have hds := hasDoubleSlash_append a r2
      rw [← e2] at hds
      rw [hds] at hnds
      exact Bool.noConfusion hnds

/-- Witness for claim C7: a concrete locator with a single trailing slash
has an empty bucket and an empty prefix. -/
theorem parseScope_empty_bucket_empty_pfx_witness :
    (parseScope "myminio/".toList).2 = [] :=
  parseScope_empty_bucket_empty_pfx "myminio/".toList (by decide) (by decide)

/-- Counterexample for claim C7 as stated: the locator `a//p` parses to an
empty bucket with the nonempty prefix `p`, violating the invariant that an
empty bucket forces an empty prefix. -/
theorem parseScope_empty_bucket_nonempty_pfx :
    (parseScope "a//p".toList).1 = [] ∧ (parseScope "a//p".toList).2 ≠ [] := by
  decide

/-- Claim C8: the argument check lowercases the scan flag before comparing,
so any spelling whose lowercase form is `deep` passes validation, while
the scan-mode mapping compares the raw value; hence every accepted
spelling of deep other than the exact lowercase string maps to the normal
scan, and the started sequence carries the normal scan intensity. -/
theorem adminHeal_scan_case_mismatch (s : Str)
    (hlow : toLowerStr s = scanDeepMode) (hraw : s ≠ scanDeepMode)
    (ctx : Ctx) (w : World) (hscan : ctx.scan = s)
    (hargs : ctx.args.length = 1)
    (hcli : w.adminClientErr = none)
    (hseq : ¬((parseScope (toSlash (ctx.args.headD []))).1 = [] ∧
      ctx.recursive = false))
    (hstop : ctx.forceStop = false) :
    checkAdminHealSyntaxOk ctx.args ctx.scan = true ∧
    transformScanArg ctx.scan = HealScanMode.normal ∧
    (mainAdminHeal ctx w).1.filter isHealCall =
      [Call.heal (parseScope (toSlash (ctx.args.headD []))).1
        (parseScope (toSlash (ctx.args.headD []))).2
        { scanMode := HealScanMode.normal
          remove := ctx.remove
          recursive := ctx.recursive
          dryRun := ctx.dryRun }
        [] ctx.forceStart false] := by
  have hsyn : checkAdminHealSyntaxOk ctx.args ctx.scan = true := by
    unfold checkAdminHealSyntaxOk
    rw [hscan, hlow]
    simp [hargs]
  have htr : transformScanArg ctx.scan = HealScanMode.normal := by
    unfold transformScanArg
    rw [hscan]
    simp [hraw]
  refine ⟨hsyn, htr, ?_⟩
  rw [adminHeal_seq_eq ctx w hsyn hcli hseq]
  rw [hstop, htr]
  cases w.healRes <;> cases w.pollErr <;>
    first
      | rfl
      | (simp only [Bool.false_eq_true, if_false]
         split <;> rfl)

/-- Witness for claim C8: the spelling `DEEP` passes validation, maps to
the normal scan mode, and the started sequence carries the normal scan. -/
theorem adminHeal_scan_case_mismatch_witness :
    checkAdminHealSyntaxOk ["myminio/data".toList] "DEEP".toList = true ∧
    transformScanArg "DEEP".toList = HealScanMode.normal ∧
    (mainAdminHeal
        { exCtx with args := ["myminio/data".toList], scan := "DEEP".toList }
        exWorld).1.filter isHealCall =
      [Call.heal "data".toList []
        { scanMode := HealScanMode.normal
          remove := false
          recursive := false
          dryRun := false }
        [] false false] :=
  adminHeal_scan_case_mismatch "DEEP".toList (by decide) (by decide)
    { exCtx with args := ["myminio/data".toList], scan := "DEEP".toList }
    exWorld rfl (by decide) (by decide) (by decide) (by decide)

/-- Claim C9: the Go error value returned by `mainAdminHeal` is always nil:
every completing path returns nil, and every failure path terminates the
process through the help or fatal exits instead of returning an error. -/
theorem adminHeal_returns_nil_error (ctx : Ctx) (w : World)
    (p : Option PrintedMsg) (e : Option Str)
    (h : (mainAdminHeal ctx w).2 = Outcome.ret p e) : e = none := by
  cases hsyn : checkAdminHealSyntaxOk ctx.args ctx.scan with
  | false =>
    have hmain : mainAdminHeal ctx w = ([], Outcome.helpExit 1) := by
      unfold mainAdminHeal; rw [hsyn]
    rw [hmain] at h
    exact absurd h (by simp)
  | true =>
    cases hcli : w.adminClientErr with
    | some err =>
      have hmain : mainAdminHeal ctx w =
          ([Call.clientInit (ctx.args.headD [])],
            Outcome.fatalExit cannotInitMsg [ctx.args.headD []]) := by
        unfold mainAdminHeal; rw [hsyn, hcli]
      rw [hmain] at h
      exact absurd h (by simp)
    | none =>
      by_cases hb : (parseScope (toSlash (ctx.args.headD []))).1 = [] ∧
          ctx.recursive = false
      · have hmain :
            mainAdminHeal ctx w =
              (match w.bgStatusRes with
                | Except.error _ =>
                  ([Call.clientInit (ctx.args.headD []), Call.bgStatus],
                    Outcome.fatalExit bgFailMsg [])
                | Except.ok st =>
                  ([Call.clientInit (ctx.args.headD []), Call.bgStatus],
                    Outcome.ret (some (PrintedMsg.bg successStr st)) none)) := by
          unfold mainAdminHeal
          rw [hsyn, hcli]
          simp only [hb.1, hb.2, and_self, if_true]
        rw [hmain] at h
        rcases hbg : w.bgStatusRes with herr | st <;> rw [hbg] at h
        · exact absurd h (by simp)
        · have h' : Outcome.ret (some (PrintedMsg.bg successStr st)) none =
              Outcome.ret p e := h
          injection h' with h1 h2
          exact h2.symm
      · rw [adminHeal_seq_eq ctx w hsyn hcli hb] at h
        cases hstop : ctx.forceStop <;> rw [hstop] at h
        · rcases hheal : w.healRes with herr | t <;> rw [hheal] at h
          · exact absurd h (by simp)
          · rcases hpoll : w.pollErr with _ | perr <;> rw [hpoll] at h
            · have h' : Outcome.ret none none = Outcome.ret p e := h
              injection h' with h1 h2
              exact h2.symm
            · by_cases hd : w.pollResult.FailureDetail = [] <;> simp [hd] at h
        · rcases hheal : w.healRes with herr | t <;> rw [hheal] at h
          · exact absurd h (by simp)
          · have h' : Outcome.ret
                (some (PrintedMsg.stop successStr
                  (toSlash (ctx.args.headD [])))) none = Outcome.ret p e := h
            injection h' with h1 h2
            exact h2.symm

/-- Witness for claim C9: the sample background-status invocation returns
normally, and the returned error value is nil. -/
theorem adminHeal_returns_nil_error_witness :
    (mainAdminHeal exCtx exWorld).2 =
      Outcome.ret (some (PrintedMsg.bg successStr exBg)) none ∧
    (none : Option Str) = none :=
  ⟨by decide,
   adminHeal_returns_nil_error exCtx exWorld
     (some (PrintedMsg.bg successStr exBg)) none (by decide)⟩

/-- The walk loop only appends: its result is the accumulated slice
followed by a tail of walked names at edit distance below 2. -/
theorem fccLoop_sound (c : Str) (l : List Str) : ∀ acc,
    ∃ t, fccLoop c acc l = acc ++ t ∧
      ∀ s, s ∈ t → s ∈ l ∧ dlDist c s < 2 := by
  induction l with
  | nil =>
    intro acc
    exact ⟨[], by simp [fccLoop], by simp⟩
  | cons v rest ih =>
    intro acc
    unfold fccLoop
    by_cases h1 : searchStrings acc v < acc.length
    · rw [if_pos h1]
      obtain ⟨t, ht, hmem⟩ := ih acc
      exact ⟨t, ht, fun s hs =>
        ⟨List.mem_cons_of_mem _ (hmem s hs).1, (hmem s hs).2⟩⟩
    · rw [if_neg h1]
      by_cases h2 : dlDist c v < 2
      · rw [if_pos h2]
        obtain ⟨t, ht, hmem⟩ := ih (acc ++ [v])
        refine ⟨v :: t, ?_, ?_⟩
        · rw [ht, List.append_assoc, List.singleton_append]
        · intro s hs
          rcases List.mem_cons.mp hs with hsv | hst
          · exact ⟨hsv ▸ List.mem_cons_self v rest, hsv ▸ h2⟩
          · exact ⟨List.mem_cons_of_mem _ (hmem s hst).1, (hmem s hst).2⟩
      · rw [if_neg h2]
        obtain ⟨t, ht, hmem⟩ := ih acc
        exact ⟨t, ht, fun s hs =>
          ⟨List.mem_cons_of_mem _ (hmem s hs).1, (hmem s hs).2⟩⟩

/-- Claim C10: every string returned by `findClosestCommands` is a
registered command name that has the queried string as a prefix or lies at
Damerau-Levenshtein distance at most 1 from it, and the result starts with
the sorted list of all prefix matches: the prefix-matched names appear in
ascending order at the front. -/
theorem findClosestCommands_sound (registered : List Str) (command : Str) :
    (∀ s, s ∈ findClosestCommands registered command →
      s ∈ registered ∧
        (command.isPrefixOf s = true ∨ dlDist command s ≤ 1)) ∧
    ∃ tail,
      findClosestCommands registered command =
        sortStrings (registered.filter (fun v => command.isPrefixOf v))
          ++ tail ∧
      List.Sorted StrLe
        (sortStrings (registered.filter (fun v => command.isPrefixOf v))) ∧
      List.Perm
        (sortStrings (registered.filter (fun v => command.isPrefixOf v)))
        (registered.filter (fun v => command.isPrefixOf v)) := by
  obtain ⟨t, ht, hmem⟩ :=
    fccLoop_sound command registered
      (sortStrings (registered.filter (fun v => command.isPrefixOf v)))
  have hres : findClosestCommands registered command =
      sortStrings (registered.filter (fun v => command.isPrefixOf v)) ++ t := by
    unfold findClosestCommands
    exact ht
  constructor
  · intro s hs
    rw [hres] at hs
    rcases List.mem_append.mp hs with hfront | htail
    · have hperm := List.perm_insertionSort StrLe
        (registered.filter (fun v => command.isPrefixOf v))
      have hs' : s ∈ registered.filter (fun v => command.isPrefixOf v) :=
        hperm.mem_iff.mp hfront
      have := List.mem_filter.mp hs'
      exact ⟨this.1, Or.inl this.2⟩
    · have := hmem s htail
      exact ⟨this.1, Or.inr (by omega)⟩
  · exact ⟨t, hres,
      List.sorted_insertionSort StrLe _,
      List.perm_insertionSort StrLe _⟩

/-- Witness for claim C10: in a concrete registered set, the suggestion
`ls` returned for the query `lz` is registered and lies at edit distance
at most 1. -/
theorem findClosestCommands_sound_witness :
    "ls".toList ∈ exCommands ∧
    ("lz".toList.isPrefixOf "ls".toList = true ∨
      dlDist "lz".toList "ls".toList ≤ 1) :=
  (findClosestCommands_sound exCommands "lz".toList).1 "ls".toList (by decide)

end MC
